import Mathlib

/-!
Shallow embedding of the repository's two components:

* `lru/lru.go` — an LRU cache backed by a doubly-linked list (`container/list`)
  plus a map from key to list element.  In the embedding the list and the map
  are represented together by one Lean list of entries in recency order
  (front = head = most recently used, back = last = least recently used); the
  Go map's key set is by construction exactly the set of keys occurring in the
  list, and its values are the list nodes themselves, so a single list carries
  both structures.  The Go `ll == nil` / `cache == nil` uninitialized state is
  `store = none`.  The optional `OnEvicted` callback is modelled by a boolean
  flag saying whether it is set, and every mutating operation additionally
  returns the list of `(key, value)` pairs passed to `OnEvicted` by that call,
  in call order.

* `singleflight.go` — `Group.Do`.  Only its sequential (non-overlapping)
  behaviour is embedded: the group state is the set of keys having an
  in-flight call (`m = none` models the nil, not-yet-lazily-initialized map),
  and `fn` is instrumented by explicit state passing so that the number of
  invocations is observable.  A call that would block on an in-flight record
  is modelled as `none`.
-/

namespace GroupcacheSpec

set_option linter.unusedSectionVars false

/-- Go struct `entry` of lru.go: the node payload of the recency list. -/
structure entry (K V : Type) where
  key : K
  value : V
deriving DecidableEq

/-- Go struct `Cache` of lru.go.  `MaxEntries` is a Go `int` (may be zero,
meaning no limit, or even negative); `OnEvicted` records whether the callback
field is non-nil; `store` is the recency list (`none` when the internal map
and list are nil). -/
structure Cache (K V : Type) where
  MaxEntries : Int
  OnEvicted : Bool
  store : Option (List (entry K V))
deriving DecidableEq

variable {K V : Type} [DecidableEq K]

/-- The boolean key test used for map lookup / node identification. -/
def keyIs (k : K) (e : entry K V) : Bool := decide (e.key = k)

/-- Go func `New`: an initialized empty cache; the `OnEvicted` field is not
set by the constructor. -/
def Cache.New (maxEntries : Int) : Cache K V :=
  ⟨maxEntries, false, some []⟩

/-- Go method `removeElement`: unlink the node from the list, delete its key
from the map, and invoke `OnEvicted` with the node's key and value if the
callback is set.  Removing the node `e` is erasing the first (by the
map/list correspondence, unique) entry with key `e.key`. -/
def Cache.removeElement (c : Cache K V) (e : entry K V) :
    Cache K V × List (K × V) :=
  ({ c with store := some ((c.store.getD []).eraseP (keyIs e.key)) },
   if c.OnEvicted then [(e.key, e.value)] else [])

/-- Go method `RemoveOldest`: on a nil cache do nothing; otherwise remove the
back element of the recency list, if any. -/
def Cache.RemoveOldest (c : Cache K V) : Cache K V × List (K × V) :=
  match c.store with
  | none => (c, [])
  | some l =>
    match l.getLast? with
    | none => (c, [])
    | some e => c.removeElement e

/-- Go method `Add`: lazily initialize on a nil cache; if the key exists,
update the node's value and move it to the front; otherwise push a new entry
at the front and, when `MaxEntries != 0` and the length now exceeds it, call
`RemoveOldest`. -/
def Cache.Add (c : Cache K V) (key : K) (value : V) :
    Cache K V × List (K × V) :=
  let l := c.store.getD []
  match l.find? (keyIs key) with
  | some _ =>
      ({ c with store := some (⟨key, value⟩ :: l.eraseP (keyIs key)) }, [])
  | none =>
      let c' : Cache K V := { c with store := some (⟨key, value⟩ :: l) }
      if c.MaxEntries ≠ 0 ∧ c.MaxEntries < (((⟨key, value⟩ : entry K V) :: l).length : Int) then
        c'.RemoveOldest
      else
        (c', [])

/-- Go method `Get`: on a nil cache return the zero value; on a hit move the
node to the front and return its value with `ok = true` (`some`); on a miss
return the zero value with `ok = false` (`none`). -/
def Cache.Get (c : Cache K V) (key : K) : Option V × Cache K V :=
  match c.store with
  | none => (none, c)
  | some l =>
    match l.find? (keyIs key) with
    | some e => (some e.value, { c with store := some (e :: l.eraseP (keyIs key)) })
    | none => (none, c)

/-- Go method `Remove`: on a nil cache do nothing; if the key is present,
remove its node via `removeElement`. -/
def Cache.Remove (c : Cache K V) (key : K) : Cache K V × List (K × V) :=
  match c.store with
  | none => (c, [])
  | some l =>
    match l.find? (keyIs key) with
    | some e => c.removeElement e
    | none => (c, [])

/-- Go method `Len`: 0 on a nil cache, else the list length. -/
def Cache.Len (c : Cache K V) : Nat :=
  match c.store with
  | none => 0
  | some l => l.length

/-- Go method `Clear`: if `OnEvicted` is set, invoke it once per stored entry
(ranging over the map; one invocation per entry), then set both the list and
the map to nil. -/
def Cache.Clear (c : Cache K V) : Cache K V × List (K × V) :=
  ({ c with store := none },
   if c.OnEvicted then (c.store.getD []).map (fun e => (e.key, e.value)) else [])

/-- The Go zero value of `Cache`: all fields zero/nil. -/
def zeroCache : Cache K V := ⟨0, false, none⟩

/-- Go struct `Group` of singleflight.go, reduced to what sequential runs can
observe: the set of keys that currently have an in-flight call record in
`g.m` (`none` models the nil, not-yet-initialized map).  The call records
themselves are created and deleted within a single sequential `Do`, so their
fields never outlive a call. -/
structure Group where
  m : Option (List String)
deriving DecidableEq

/-- Go method `Do`, sequential semantics.  The supplied function `fn` is
instrumented by explicit state passing (`S`), so one application of `fn`
is one invocation; it returns a value and an optional error.  When the key
already has an in-flight call, the caller would block on the record's
wait group, which no sequential run can get past: that case is `none`.
Otherwise `Do` lazily initializes the map, registers a record for the key,
invokes `fn` exactly once, deletes the record, and returns the pair this
invocation produced together with the instrumentation state and the new
group. -/
def Group.Do {S V E : Type} (g : Group) (s : S) (key : String)
    (fn : S → S × V × Option E) : Option (S × (V × Option E) × Group) :=
  let m := g.m.getD []
  if key ∈ m then
    none
  else
    let r := fn s
    some (r.1, r.2, ⟨some ((key :: m).erase key)⟩)

/-! Helper lemmas shared by the claim theorems. -/

theorem length_eraseP_of_find? {α : Type} {p : α → Bool} {l : List α} {e : α}
    (h : l.find? p = some e) : (l.eraseP p).length + 1 = l.length :=
  List.length_eraseP_add_one (List.mem_of_find?_eq_some h) (List.find?_some h)

theorem find?_eraseP_eq_none {l : List (entry K V)} {k : K}
    (hnd : (l.map entry.key).Nodup) :
    (l.eraseP (keyIs k)).find? (keyIs k) = none := by
  induction l with
  | nil => rfl
  | cons e t ih =>
      simp only [List.map_cons, List.nodup_cons] at hnd
      by_cases he : keyIs k e = true
      · rw [List.eraseP_cons_of_pos he]
        rw [List.find?_eq_none]
        intro x hx hpx
        have hxk : x.key = k := by simpa [keyIs] using hpx
        have hek : e.key = k := by simpa [keyIs] using he
        apply hnd.1
        rw [hek, ← hxk]
        exact List.mem_map_of_mem entry.key hx
      · rw [List.eraseP_cons_of_neg (by simpa using he)]
        rw [List.find?_cons_of_neg _ (by simpa using he)]
        exact ih hnd.2

theorem len_eq_store_length (c : Cache K V) :
    c.Len = (c.store.getD []).length := by
  cases hs : c.store <;> simp [Cache.Len, hs]

theorem getLast?_cons_exists {α : Type} (a : α) (l : List α) :
    ∃ b, (a :: l).getLast? = some b := by
  induction l generalizing a with
  | nil => exact ⟨a, rfl⟩
  | cons x t ih =>
      obtain ⟨b, hb⟩ := ih x
      exact ⟨b, by rw [List.getLast?_cons_cons]; exact hb⟩

/-- The effect of an overflow-causing `Add` of a fresh key: the result is the
pushed list with the back entry `b` erased, and `OnEvicted` applied to `b`
when configured. -/
theorem add_overflow_spec (c : Cache K V) (key : K) (v : V) (b : entry K V)
    (hf : (c.store.getD []).find? (keyIs key) = none)
    (hcond : c.MaxEntries ≠ 0 ∧
      c.MaxEntries < (((⟨key, v⟩ : entry K V) :: c.store.getD []).length : Int))
    (hback : ((⟨key, v⟩ : entry K V) :: c.store.getD []).getLast? = some b) :
    c.Add key v
      = (⟨c.MaxEntries, c.OnEvicted,
          some (((⟨key, v⟩ : entry K V) :: c.store.getD []).eraseP (keyIs b.key))⟩,
         if c.OnEvicted then [(b.key, b.value)] else []) := by
  simp only [Cache.Add, hf]
  rw [if_pos hcond]
  simp [Cache.RemoveOldest, hback, Cache.removeElement]

/-- The effect of a non-overflowing `Add` of a fresh key. -/
theorem add_fresh_spec (c : Cache K V) (key : K) (v : V)
    (hf : (c.store.getD []).find? (keyIs key) = none)
    (hcond : ¬(c.MaxEntries ≠ 0 ∧
      c.MaxEntries < (((⟨key, v⟩ : entry K V) :: c.store.getD []).length : Int))) :
    c.Add key v
      = (⟨c.MaxEntries, c.OnEvicted,
          some ((⟨key, v⟩ : entry K V) :: c.store.getD [])⟩, []) := by
  simp only [Cache.Add, hf]
  rw [if_neg hcond]

/-- The effect of an `Add` whose key is already present: value updated, node
moved to the front, no eviction. -/
theorem add_hit_spec (c : Cache K V) (key : K) (v : V) (e : entry K V)
    (hf : (c.store.getD []).find? (keyIs key) = some e) :
    c.Add key v
      = (⟨c.MaxEntries, c.OnEvicted,
          some ((⟨key, v⟩ : entry K V) :: (c.store.getD []).eraseP (keyIs key))⟩, []) := by
  simp [Cache.Add, hf]

theorem get_len_eq (c : Cache K V) (key : K) : ((c.Get key).2).Len = c.Len := by
  cases hs : c.store with
  | none => simp [Cache.Get, hs]
  | some l =>
      cases hf : l.find? (keyIs key) with
      | none => simp [Cache.Get, hs, hf]
      | some e =>
          have hlen := length_eraseP_of_find? hf
          simp [Cache.Get, hs, hf, Cache.Len]
          omega

theorem remove_len_le (c : Cache K V) (key : K) :
    (c.Remove key).1.Len ≤ c.Len := by
  cases hs : c.store with
  | none => simp [Cache.Remove, hs]
  | some l =>
      cases hf : l.find? (keyIs key) with
      | none => simp [Cache.Remove, hs, hf]
      | some e =>
          have hgd : c.store.getD [] = l := by rw [hs]; rfl
          simp [Cache.Remove, hs, hf, Cache.removeElement, hgd, Cache.Len]
          exact List.length_eraseP_le l

theorem removeOldest_len_le (c : Cache K V) :
    (c.RemoveOldest).1.Len ≤ c.Len := by
  cases hs : c.store with
  | none => simp [Cache.RemoveOldest, hs]
  | some l =>
      cases hl : l.getLast? with
      | none => simp [Cache.RemoveOldest, hs, hl]
      | some b =>
          have hgd : c.store.getD [] = l := by rw [hs]; rfl
          simp [Cache.RemoveOldest, hs, hl, Cache.removeElement, hgd, Cache.Len]
          exact List.length_eraseP_le l

theorem add_hit_len (c : Cache K V) {key : K} (v : V) {e : entry K V}
    (hf : (c.store.getD []).find? (keyIs key) = some e) :
    (c.Add key v).1.Len = c.Len := by
  rw [add_hit_spec c key v e hf]
  have hlen := length_eraseP_of_find? hf
  rw [len_eq_store_length c]
  simp only [Cache.Len, List.length_cons]
  omega

theorem add_evict_len (c : Cache K V) {key : K} (v : V)
    (hf : (c.store.getD []).find? (keyIs key) = none)
    (hc : c.MaxEntries ≠ 0 ∧
      c.MaxEntries < (((⟨key, v⟩ : entry K V) :: c.store.getD []).length : Int)) :
    (c.Add key v).1.Len = c.Len := by
  obtain ⟨b, hb⟩ := getLast?_cons_exists (⟨key, v⟩ : entry K V) (c.store.getD [])
  rw [add_overflow_spec c key v b hf hc hb]
  have hmem := List.mem_of_getLast?_eq_some hb
  have hlen := List.length_eraseP_add_one hmem
    (show keyIs b.key b = true by simp [keyIs])
  rw [len_eq_store_length c]
  simp only [Cache.Len, List.length_cons] at *
  omega

theorem add_fresh_len (c : Cache K V) {key : K} (v : V)
    (hf : (c.store.getD []).find? (keyIs key) = none)
    (hc : ¬(c.MaxEntries ≠ 0 ∧
      c.MaxEntries < (((⟨key, v⟩ : entry K V) :: c.store.getD []).length : Int))) :
    (c.Add key v).1.Len = c.Len + 1 := by
  rw [add_fresh_spec c key v hf hc]
  rw [len_eq_store_length c]
  simp [Cache.Len]

/-! Claim theorems. -/

/-- C2: for every cache with `MaxEntries > 0` whose size is within the bound,
each public operation keeps `Len` at most `MaxEntries`; and an `Add` of a new
key into a full cache evicts exactly one entry, leaving `Len` unchanged. -/
theorem cache_len_bounded (c : Cache K V) (key : K) (v : V)
    (hpos : 0 < c.MaxEntries) (hinv : (c.Len : Int) ≤ c.MaxEntries) :
    (((c.Add key v).1.Len : Int) ≤ c.MaxEntries) ∧
    (((c.Get key).2.Len : Int) ≤ c.MaxEntries) ∧
    (((c.Remove key).1.Len : Int) ≤ c.MaxEntries) ∧
    ((c.RemoveOldest.1.Len : Int) ≤ c.MaxEntries) ∧
    ((c.Clear.1.Len : Int) ≤ c.MaxEntries) ∧
    ((c.store.getD []).find? (keyIs key) = none →
      (c.Len : Int) = c.MaxEntries → (c.Add key v).1.Len = c.Len) := by
  refine ⟨?_, ?_, ?_, ?_, ?_, ?_⟩
  · cases hf : (c.store.getD []).find? (keyIs key) with
    | some e => rw [add_hit_len c v hf]; exact hinv
    | none =>
        by_cases hc : (c.MaxEntries ≠ 0 ∧
            c.MaxEntries < (((⟨key, v⟩ : entry K V) :: c.store.getD []).length : Int))
        · rw [add_evict_len c v hf hc]; exact hinv
        · rw [add_fresh_len c v hf hc]
          push_neg at hc
          have hle := hc (ne_of_gt hpos)
          simp only [List.length_cons] at hle
          rw [len_eq_store_length c]
          push_cast at hle ⊢
          omega
  · rw [get_len_eq]; exact hinv
  · exact le_trans (Nat.cast_le.mpr (remove_len_le c key)) hinv
  · exact le_trans (Nat.cast_le.mpr (removeOldest_len_le c)) hinv
  · have h0 : c.Clear.1.Len = 0 := rfl
    rw [h0]
    simpa using hpos.le
  · intro hf hfull
    by_cases hc : (c.MaxEntries ≠ 0 ∧
        c.MaxEntries < (((⟨key, v⟩ : entry K V) :: c.store.getD []).length : Int))
    · exact add_evict_len c v hf hc
    · exfalso
      push_neg at hc
      have hle := hc (ne_of_gt hpos)
      simp only [List.length_cons] at hle
      rw [len_eq_store_length c] at hfull
      push_cast at hle hfull
      omega

/-- C2 (witness): the bound theorem applied to a full two-entry cache with
`MaxEntries = 2`, a fresh key 5 and value 9. -/
theorem cache_len_bounded_witness :
    (0 : Int) < 2 ∧
    (((⟨2, false, some [⟨1, 2⟩, ⟨0, 1⟩]⟩ : Cache Nat Nat).Len : Int) ≤ 2) ∧
    ((((⟨2, false, some [⟨1, 2⟩, ⟨0, 1⟩]⟩ : Cache Nat Nat).Add 5 9).1.Len : Int) ≤ 2 ∧
     (((⟨2, false, some [⟨1, 2⟩, ⟨0, 1⟩]⟩ : Cache Nat Nat).Get 5).2.Len : Int) ≤ 2 ∧
     (((⟨2, false, some [⟨1, 2⟩, ⟨0, 1⟩]⟩ : Cache Nat Nat).Remove 5).1.Len : Int) ≤ 2 ∧
     ((⟨2, false, some [⟨1, 2⟩, ⟨0, 1⟩]⟩ : Cache Nat Nat).RemoveOldest.1.Len : Int) ≤ 2 ∧
     ((⟨2, false, some [⟨1, 2⟩, ⟨0, 1⟩]⟩ : Cache Nat Nat).Clear.1.Len : Int) ≤ 2 ∧
     (((⟨2, false, some [⟨1, 2⟩, ⟨0, 1⟩]⟩ : Cache Nat Nat).store.getD []).find?
          (keyIs 5) = none →
       (((⟨2, false, some [⟨1, 2⟩, ⟨0, 1⟩]⟩ : Cache Nat Nat).Len : Int) = 2) →
       ((⟨2, false, some [⟨1, 2⟩, ⟨0, 1⟩]⟩ : Cache Nat Nat).Add 5 9).1.Len
         = (⟨2, false, some [⟨1, 2⟩, ⟨0, 1⟩]⟩ : Cache Nat Nat).Len)) :=
  ⟨by decide, by decide, cache_len_bounded _ 5 9 (by decide) (by decide)⟩

/-- C1 (counterexample): the claim says `Remove` never invokes `OnEvicted`,
but `Remove` goes through `removeElement`, which invokes the callback: on a
cache with the callback set and one entry `(1, 10)`, `Remove 1` produces one
`OnEvicted` invocation with `(1, 10)`, not zero. -/
theorem remove_calls_onEvicted_cex :
    ((⟨0, true, some [⟨1, 10⟩]⟩ : Cache Nat Nat).Remove 1).2 = [(1, 10)] := by
  rfl

/-- C1 (amended): for every cache whose keys are pairwise distinct and every
key present in it, `Remove key` deletes the entry from both the lookup
mapping and the recency order (the key is no longer found, and exactly one
entry is gone), and `OnEvicted` IS invoked with the removed entry's key and
value whenever the callback is configured. -/
theorem remove_deletes_entry (c : Cache K V) (l : List (entry K V))
    (e : entry K V) (key : K)
    (hs : c.store = some l)
    (hnd : (l.map entry.key).Nodup)
    (hf : l.find? (keyIs key) = some e) :
    (c.Remove key).1.store = some (l.eraseP (keyIs key)) ∧
    ((c.Remove key).1.store.getD []).find? (keyIs key) = none ∧
    (c.Remove key).1.Len + 1 = c.Len ∧
    (c.Remove key).2 = (if c.OnEvicted then [(key, e.value)] else []) := by
  have hek : e.key = key := by simpa [keyIs] using List.find?_some hf
  have hrm : c.Remove key = c.removeElement e := by
    simp [Cache.Remove, hs, hf]
  rw [hrm]
  have hgd : c.store.getD [] = l := by rw [hs]; rfl
  refine ⟨?_, ?_, ?_, ?_⟩
  · simp [Cache.removeElement, hgd, hek]
  · simpa [Cache.removeElement, hgd, hek] using find?_eraseP_eq_none hnd
  · simp only [Cache.removeElement, hgd, hek, Cache.Len, hs]
    exact length_eraseP_of_find? hf
  · simp [Cache.removeElement, hek]

/-- C1 (witness): the amended theorem applied to a concrete two-entry cache
with the callback configured. -/
theorem remove_deletes_entry_witness :
    ((⟨5, true, some [⟨1, 10⟩, ⟨2, 20⟩]⟩ : Cache Nat Nat).Remove 2).1.store
        = some [⟨1, 10⟩] ∧
    ((((⟨5, true, some [⟨1, 10⟩, ⟨2, 20⟩]⟩ : Cache Nat Nat).Remove
        2).1.store.getD []).find? (keyIs 2)) = none ∧
    ((⟨5, true, some [⟨1, 10⟩, ⟨2, 20⟩]⟩ : Cache Nat Nat).Remove 2).1.Len + 1
        = (⟨5, true, some [⟨1, 10⟩, ⟨2, 20⟩]⟩ : Cache Nat Nat).Len ∧
    ((⟨5, true, some [⟨1, 10⟩, ⟨2, 20⟩]⟩ : Cache Nat Nat).Remove 2).2
        = (if (true : Bool) then [(2, 20)] else []) :=
  remove_deletes_entry _ [⟨1, 10⟩, ⟨2, 20⟩] ⟨2, 20⟩ 2 rfl (by decide) (by decide)

/-- C3: when an `Add` of a new key makes the size exceed a non-zero
`MaxEntries`, the evicted entry is the back of the recency order, `OnEvicted`
is called exactly once, with that entry's key and value, and exactly one
entry leaves the cache (the new length equals the old one). -/
theorem add_evicts_lru (c : Cache K V) (key : K) (v : V) (b : entry K V)
    (hfresh : (c.store.getD []).find? (keyIs key) = none)
    (hmax : c.MaxEntries ≠ 0)
    (hover : c.MaxEntries < (((⟨key, v⟩ : entry K V) :: c.store.getD []).length : Int))
    (hev : c.OnEvicted = true)
    (hback : ((⟨key, v⟩ : entry K V) :: c.store.getD []).getLast? = some b) :
    (c.Add key v).2 = [(b.key, b.value)] ∧
    (c.Add key v).1.Len = (c.store.getD []).length := by
  rw [add_overflow_spec c key v b hfresh ⟨hmax, hover⟩ hback]
  constructor
  · simp [hev]
  · have hmem : b ∈ (⟨key, v⟩ : entry K V) :: c.store.getD [] :=
      List.mem_of_getLast?_eq_some hback
    have hlen := List.length_eraseP_add_one hmem
      (show keyIs b.key b = true by simp [keyIs])
    simp only [List.length_cons] at hlen
    simp only [Cache.Len]
    omega

/-- C3 (witness): the spec's example.  With `MaxEntries = 2` and the callback
set, the cache after `Add(0,1)`, `Add(1,2)` is `[⟨1,2⟩, ⟨0,1⟩]`; `Add(2,3)`
evicts `(0,1)`.  After `Get 1` the cache is `[⟨1,2⟩, ⟨2,3⟩]`; `Add(3,4)`
evicts `(2,3)` — the stale key 2, not the refreshed key 1. -/
theorem add_evicts_lru_witness :
    (((⟨2, true, some [⟨1, 2⟩, ⟨0, 1⟩]⟩ : Cache Nat Nat).Add 2 3).2 = [(0, 1)] ∧
     ((⟨2, true, some [⟨1, 2⟩, ⟨0, 1⟩]⟩ : Cache Nat Nat).Add 2 3).1.Len = 2) ∧
    (((⟨2, true, some [⟨1, 2⟩, ⟨2, 3⟩]⟩ : Cache Nat Nat).Add 3 4).2 = [(2, 3)] ∧
     ((⟨2, true, some [⟨1, 2⟩, ⟨2, 3⟩]⟩ : Cache Nat Nat).Add 3 4).1.Len = 2) :=
  ⟨add_evicts_lru _ 2 3 ⟨0, 1⟩ (by decide) (by decide) (by decide) rfl (by decide),
   add_evicts_lru _ 3 4 ⟨2, 3⟩ (by decide) (by decide) (by decide) rfl (by decide)⟩

/-- C5 (counterexample): the round trip fails on a cache with negative
`MaxEntries`.  With `MaxEntries = -1`, `Add 0 1` on an empty initialized
cache pushes the entry and then immediately evicts it (1 > -1), so the
following `Get 0` misses instead of returning `(1, true)`. -/
theorem add_get_roundtrip_cex :
    (((⟨-1, false, some []⟩ : Cache Nat Nat).Add 0 1).1.Get 0).1 = none := by
  rfl

/-- C5 (amended): for every cache with non-negative `MaxEntries`,
`Add key v` immediately followed by `Get key` returns `(v, true)`. -/
theorem add_get_roundtrip (c : Cache K V) (key : K) (v : V)
    (h : 0 ≤ c.MaxEntries) :
    ((c.Add key v).1.Get key).1 = some v := by
  have hfront : ∀ (me : Int) (oe : Bool) (t : List (entry K V)),
      ((⟨me, oe, some ((⟨key, v⟩ : entry K V) :: t)⟩ : Cache K V).Get key).1
        = some v := by
    intro me oe t
    simp [Cache.Get, keyIs]
  cases hf : (c.store.getD []).find? (keyIs key) with
  | some e =>
      rw [add_hit_spec c key v e hf]
      exact hfront _ _ _
  | none =>
      by_cases hc : (c.MaxEntries ≠ 0 ∧
          c.MaxEntries < (((⟨key, v⟩ : entry K V) :: c.store.getD []).length : Int))
      · obtain ⟨b, hb⟩ := getLast?_cons_exists (⟨key, v⟩ : entry K V) (c.store.getD [])
        have hpos : 0 < c.MaxEntries := lt_of_le_of_ne h (Ne.symm hc.1)
        have hlen : 1 ≤ (c.store.getD []).length := by
          have h2 := hc.2
          simp only [List.length_cons] at h2
          omega
        obtain ⟨x, t, hxt⟩ : ∃ x t, c.store.getD [] = x :: t := by
          cases hl : c.store.getD [] with
          | nil => rw [hl] at hlen; exact absurd hlen (by simp)
          | cons x t => exact ⟨x, t, rfl⟩
        have hbl : b ∈ c.store.getD [] := by
          rw [hxt] at hb ⊢
          rw [List.getLast?_cons_cons] at hb
          exact List.mem_of_getLast?_eq_some hb
        have hbkey : b.key ≠ key := by
          have hh := List.find?_eq_none.mp hf b hbl
          simpa [keyIs] using hh
        rw [add_overflow_spec c key v b hf hc hb]
        rw [List.eraseP_cons_of_neg
          (by simp [keyIs]; exact fun hh => hbkey (by rw [hh]))]
        exact hfront _ _ _
      · rw [add_fresh_spec c key v hf hc]
        exact hfront _ _ _

/-- C5 (witness): the amended theorem applied to an initialized empty cache
with `MaxEntries = 2`. -/
theorem add_get_roundtrip_witness :
    ((((⟨2, false, some []⟩ : Cache Nat Nat).Add 0 1).1.Get 0).1) = some 1 :=
  add_get_roundtrip _ 0 1 (by decide)

/-- C6: in a sequential run, a `Do` call on a key with no in-flight record
invokes its `fn` exactly once (observable through the instrumentation state),
returns exactly the pair this invocation produced, and removes the call
record before returning, so a second, non-overlapping `Do` on the same key
again invokes its own function once and returns that function's own result —
nothing is memoized across calls, for successes and errors alike. -/
theorem do_sequential_independent {S A E : Type} (g : Group) (s : S)
    (key : String) (fn fn2 : S → S × A × Option E)
    (h : key ∉ g.m.getD []) :
    Group.Do g s key fn
      = some ((fn s).1, (fn s).2, Group.mk (some (g.m.getD []))) ∧
    key ∉ (Group.mk (some (g.m.getD []))).m.getD [] ∧
    Group.Do (Group.mk (some (g.m.getD []))) (fn s).1 key fn2
      = some ((fn2 (fn s).1).1, (fn2 (fn s).1).2,
              Group.mk (some (g.m.getD []))) := by
  have herase : (key :: g.m.getD []).erase key = g.m.getD [] :=
    List.erase_cons_head key _
  refine ⟨?_, by simpa using h, ?_⟩
  · simp [Group.Do, h, herase]
  · simp [Group.Do, h, herase]

/-- C6 (witness): two sequential calls on the fresh group; the first
increments the instrumentation counter to 1 and returns `(42, nil)`, the
second (whose function returns an error) increments it to 2 and returns its
own `(7, some 3)` — two invocations in total, no memoization, and the
record is absent from the map after each call. -/
theorem do_sequential_independent_witness :
    Group.Do (Group.mk none) (0 : Nat) "k"
        (fun n => (n + 1, ((42 : Nat), (none : Option Nat))))
      = some (1, (42, none), Group.mk (some [])) ∧
    "k" ∉ (Group.mk (some ([] : List String))).m.getD [] ∧
    Group.Do (Group.mk (some ([] : List String))) 1 "k"
        (fun n => (n + 1, ((7 : Nat), (some 3 : Option Nat))))
      = some (2, (7, some 3), Group.mk (some [])) :=
  do_sequential_independent (Group.mk none) 0 "k" _ _ (by simp)

/-- C7: for every cache, `Clear` invokes `OnEvicted` exactly once per stored
entry when the callback is configured (and not at all otherwise), and `Len`
is 0 afterwards. -/
theorem clear_evicts_each_entry (c : Cache K V) :
    (c.Clear).1.Len = 0 ∧
    (c.Clear).2.length = (if c.OnEvicted then c.Len else 0) := by
  refine ⟨rfl, ?_⟩
  cases hs : c.store <;> cases he : c.OnEvicted <;>
    simp [Cache.Clear, Cache.Len, hs, he]

/-- C8: every public operation is total on the Go zero-value cache (nil map
and list): `Len` is 0, `Get` misses and changes nothing, `Remove` and
`RemoveOldest` are no-ops, and `Add` lazily initializes the structures and
stores the entry without evicting. -/
theorem zero_value_cache_total (key : K) (v : V) :
    (zeroCache : Cache K V).Len = 0 ∧
    (zeroCache : Cache K V).Get key = (none, zeroCache) ∧
    (zeroCache : Cache K V).Remove key = (zeroCache, []) ∧
    (zeroCache : Cache K V).RemoveOldest = (zeroCache, []) ∧
    ((zeroCache : Cache K V).Add key v).1.store = some [⟨key, v⟩] ∧
    ((zeroCache : Cache K V).Add key v).2 = [] := by
  refine ⟨rfl, rfl, rfl, rfl, ?_, ?_⟩ <;>
    simp [Cache.Add, zeroCache]

/-- C9: `Get` on a key that is not present returns the zero value and `false`
and returns the cache completely unchanged (same `Len`, same order). -/
theorem get_miss_no_side_effect (c : Cache K V) (key : K)
    (h : (c.store.getD []).find? (keyIs key) = none) :
    c.Get key = (none, c) := by
  cases hs : c.store with
  | none => simp [Cache.Get, hs]
  | some l =>
      rw [hs] at h
      simp only [Option.getD_some] at h
      simp [Cache.Get, hs, h]

/-- C9 (witness): the theorem applied to a concrete one-entry cache and an
absent key. -/
theorem get_miss_no_side_effect_witness :
    (⟨2, false, some [⟨0, 1⟩]⟩ : Cache Nat Nat).Get 5
      = (none, ⟨2, false, some [⟨0, 1⟩]⟩) :=
  get_miss_no_side_effect _ 5 (by decide)

/-- C10: `Clear` leaves the configuration fields `MaxEntries` and `OnEvicted`
unchanged; only the entry storage is discarded. -/
theorem clear_preserves_config (c : Cache K V) :
    (c.Clear).1.MaxEntries = c.MaxEntries ∧
    (c.Clear).1.OnEvicted = c.OnEvicted :=
  ⟨rfl, rfl⟩

end GroupcacheSpec
